import Mathlib

set_option maxHeartbeats 1000000

/-!
A shallow embedding of the HQ/LQ isoform classification and quiver-job
reconciliation subsystem of `pbtranscript` (files
`pbtools/pbtranscript/ice/IceQuiverPostprocess.py` and
`pbtools/pbtranscript/Utils.py`), together with theorems checking the
natural-language specification against it.

Python strings are modelled as `List Char`, Python ints as `Nat`/`Int`,
Python floats as real numbers, dictionaries as association lists with
overwrite-on-insert.
-/


/-! ## Definitions (shallow embedding of the source) -/

/-- A FASTQ record as yielded by `FastqReader`: read identifier, sequence,
and per-base Phred quality values (one integer per base). -/
structure FastqRecord where
  name : List Char
  sequence : List Char
  quality : List Nat
deriving DecidableEq, Repr

/-- Helper for `parse_nat`: accumulate decimal digits; any non-digit
character makes the parse fail (models `int(s)` raising `ValueError`,
restricted to plain digit strings, which is the shape the read-identifier
grammar produces). -/
def parse_nat_digits : List Char → Nat → Option Nat
  | [], acc => some acc
  | c :: cs, acc =>
      if c.isDigit then parse_nat_digits cs (10 * acc + (c.toNat - 48)) else none

/-- Python `int(s)` on a string of decimal digits; `int("")` raises, hence `none`. -/
def parse_nat (s : List Char) : Option Nat :=
  if s.isEmpty then none else parse_nat_digits s 0

/-- Identifier resolution of `IceQuiverPostprocess.pickup_best_clusters`
(lines 321-327 of IceQuiverPostprocess.py):

    cid = r.name.split('|')[0]
    if cid.endswith('_ref'): cid = cid[:-4]
    i = cid.find('/')
    if i > 0: cid = cid[:i]
    cid = int(cid[1:])

`split('|')[0]` is the text before the first `'|'`; `find` returning `-1`
(absent) or `0` leaves the string untrimmed. -/
def resolve_cid (name : List Char) : Option Nat :=
  let cid0 := name.takeWhile (fun c => c ≠ '|')
  let cid1 := if ['_', 'r', 'e', 'f'].isSuffixOf cid0 then
                cid0.take (cid0.length - 4) else cid0
  let i := (cid1.takeWhile (fun c => c ≠ '/')).length
  let cid2 := if 0 < i ∧ i < cid1.length then cid1.take i else cid1
  parse_nat (cid2.drop 1)

/-- The Python slice `l[a : -b]` for `a, b ≥ 0`: when `b = 0` the stop
index `-0 = 0` makes the slice empty; otherwise the slice stops `b`
elements before the end (clamped) and starts at `a` (clamped). -/
def pySlice {α : Type} (l : List α) (a b : Nat) : List α :=
  if b = 0 then [] else (l.take (l.length - b)).drop a

/-- Models `Utils.phred_to_qv(phred) = 10 ** -(phred / 10.0)`, over the reals. -/
noncomputable def phred_to_qv (phred : Nat) : ℝ :=
  (10 : ℝ) ^ (-(phred : ℝ) / 10)

/-- Models `qv_len = max(0, len(r.quality) - qv_trim_5 - qv_trim_3)`; truncated
`Nat` subtraction is exactly Python's `max(0, ...)` here. -/
def qv_len (quality : List Nat) (t5 t3 : Nat) : Nat :=
  quality.length - t5 - t3

/-- Models `err_sum = sum(q[qv_trim_5 : -qv_trim_3])` where
`q = [phred_to_qv(x) for x in r.quality]`. -/
noncomputable def err_sum (quality : List Nat) (t5 t3 : Nat) : ℝ :=
  (pySlice (quality.map phred_to_qv) t5 t3).sum

/-- The accuracy estimate the code compares against the threshold:
`1.0 - (err_sum / float(qv_len))`. -/
noncomputable def accuracy (quality : List Nat) (t5 t3 : Nat) : ℝ :=
  1 - err_sum quality t5 t3 / (qv_len quality t5 t3 : ℝ)

/-- The QVPolicy triple carried by `IceQuiverHQLQOptions`: the two trim
parameters and the minimum accuracy threshold (a Python float, modelled
as a rational). -/
structure IpqOpts where
  qv_trim_5 : Nat
  qv_trim_3 : Nat
  hq_quiver_min_accuracy : ℚ
deriving DecidableEq, Repr

/-- The test deciding membership of a quivered cluster in `good`
(lines 333-339): the window is assessable (`qv_len != 0`) and
`1.0 - err_sum/qv_len >= hq_quiver_min_accuracy and len(uc[cid]) >= 2`. -/
def good_cond (o : IpqOpts) (uc : Nat → List String) (p : Nat × FastqRecord) : Prop :=
  qv_len p.2.quality o.qv_trim_5 o.qv_trim_3 ≠ 0 ∧
    ((o.hq_quiver_min_accuracy : ℝ) ≤ accuracy p.2.quality o.qv_trim_5 o.qv_trim_3 ∧
      2 ≤ (uc p.1).length)

open Classical in
/-- The `good` list of cluster ids built from the `quivered` dictionary
(modelled as an association list). -/
noncomputable def good_list (o : IpqOpts) (uc : Nat → List String)
    (q : List (Nat × FastqRecord)) : List Nat :=
  (q.filter (fun p => good_cond o uc p)).map Prod.fst

open Classical in
/-- Cluster ids written to the HQ (good) fasta/fastq pair by the writer
loop (lines 357-375): the keys of `quivered` for which `cid in good`. -/
noncomputable def hq_list (o : IpqOpts) (uc : Nat → List String)
    (q : List (Nat × FastqRecord)) : List Nat :=
  (q.filter (fun p => p.1 ∈ good_list o uc q)).map Prod.fst

open Classical in
/-- Cluster ids written to the LQ (bad) fasta/fastq pair by the writer
loop: the keys of `quivered` for which `cid not in good`. -/
noncomputable def lq_list (o : IpqOpts) (uc : Nat → List String)
    (q : List (Nat × FastqRecord)) : List Nat :=
  (q.filter (fun p => ¬ (p.1 ∈ good_list o uc q))).map Prod.fst

/-- Python dictionary assignment `d[k] = v` on an association list:
overwrite in place if the key is present, else append. -/
def dict_insert {κ ν : Type} [DecidableEq κ] (d : List (κ × ν)) (k : κ) (v : ν) :
    List (κ × ν) :=
  if d.any (fun p => p.1 = k) then
    d.map (fun p => if p.1 = k then (k, v) else p)
  else d ++ [(k, v)]

/-- Python dictionary lookup `d[k]` on an association list. -/
def dict_lookup {κ ν : Type} [DecidableEq κ] (d : List (κ × ν)) (k : κ) : Option ν :=
  (d.find? (fun p => p.1 = k)).map Prod.snd

/-- One iteration of the read-collection loop:
`quivered[cid] = r`, failing (ValueError) when the identifier does not
resolve. -/
def collect_step (d : List (Nat × FastqRecord)) (r : FastqRecord) :
    Option (List (Nat × FastqRecord)) :=
  match resolve_cid r.name with
  | some cid => some (dict_insert d cid r)
  | none => none

/-- The `quivered` dictionary built by the nested loop
`for fq in fq_filenames: for r in FastqReader(fq): quivered[cid] = r`
(lines 317-328); each inner list is the record stream of one completed
fastq file. -/
def collect_quivered (files : List (List FastqRecord)) :
    Option (List (Nat × FastqRecord)) :=
  files.foldlM (fun d rs => rs.foldlM collect_step d) []

/-- Modelled from the spec (section 4.4): the trimmed window drops exactly
the first `qv_trim_5` and the last `qv_trim_3` bases, and the accuracy is
1 minus the sum of the error probabilities in that window divided by the
window length `len - qv_trim_5 - qv_trim_3`.  Stated only for comparison
with the code's `accuracy`. -/
noncomputable def spec_accuracy (quality : List Nat) (t5 t3 : Nat) : ℝ :=
  1 - (((quality.take (quality.length - t3)).drop t5).map phred_to_qv).sum /
      ((quality.length - t5 - t3 : Nat) : ℝ)

/-- Outcome of one `open(fn, 'r')` existence probe in `Utils.nfs_exists`:
success, `IOError` with `errno == 2` (no such file or directory),
`IOError` with `errno == 21` (is a directory), or any other `IOError`. -/
inductive ProbeResult where
  | ok
  | noent
  | isdir
  | other
deriving DecidableEq, Repr, Fintype

/-- Models `Utils.nfs_exists` (lines 77-121): the preliminary `ls` only triggers
the NFS mount and its result is ignored, so the existence probes are the
`open` calls.  Given the outcomes the filesystem would return for a first
and a (potential) second probe, the model returns the boolean result, the
number of probes actually performed, and the seconds slept. -/
def nfs_exists (p1 p2 : ProbeResult) : Bool × Nat × Nat :=
  match p1 with
  | .ok => (true, 1, 0)
  | .isdir => (true, 1, 0)
  | .other => (false, 1, 0)
  | .noent =>
    match p2 with
    | .ok => (true, 2, 15)
    | .noent => (false, 2, 15)
    | .isdir => (true, 2, 15)
    | .other => (false, 2, 15)

/-- Models `op.basename`: the part of a path after the last `'/'`. -/
def basename_cl (s : List Char) : List Char :=
  (s.reverse.takeWhile (fun c => c ≠ '/')).reverse

/-- Python `str.replace('.sh', '.quivered.fq')`: replace every
non-overlapping occurrence, scanning left to right. -/
def replace_sh : List Char → List Char
  | '.' :: 's' :: 'h' :: rest => ".quivered.fq".toList ++ replace_sh rest
  | c :: rest => c :: replace_sh rest
  | [] => []

/-- The expected output file of a submitted script (line 250-251):
`op.join(self.quivered_dir, op.basename(sh_name).replace('.sh', '.quivered.fq'))`. -/
def out_name (quivered_dir sh : List Char) : List Char :=
  quivered_dir ++ '/' :: replace_sh (basename_cl sh)

/-- The `submitted` dictionary built from the ledger lines (lines 229-236):
a `local` line is keyed by its own script reference, any other line by its
scheduler job id; later lines overwrite earlier ones with the same key. -/
def submitted_dict (ledger : List (List Char × List Char)) :
    List (List Char × List Char) :=
  ledger.foldl (fun d ab =>
    if ab.1 = "local".toList then dict_insert d ab.2 ab.2
    else dict_insert d ab.1 ab.2) []

/-- The `sge_used` flag: set as soon as any ledger line has a non-`local` job id. -/
def sge_used (ledger : List (List Char × List Char)) : Bool :=
  ledger.any (fun ab => ab.1 ≠ "local".toList)

/-- The `running_jids` local variable: it is assigned (to the ids reported
by `qstat`, abstracted here to the id list the scheduler would report)
only when `sge_used and self.use_sge`; otherwise it stays unbound
(`none`), and any later read of it raises `UnboundLocalError`. -/
def running_jids (ledger : List (List Char × List Char)) (use_sge : Bool)
    (qstat_ids : List (List Char)) : Option (List (List Char)) :=
  if sge_used ledger && use_sge then some qstat_ids else none

/-- The `done_flag` value after the qstat scan (lines 221, 238-247): cleared iff
some reported running job id is a key of `submitted`. -/
def init_done_flag (ledger : List (List Char × List Char)) (use_sge : Bool)
    (qstat_ids : List (List Char)) : Bool :=
  match running_jids ledger use_sge qstat_ids with
  | some rj => !(rj.any (fun id2 => (submitted_dict ledger).any (fun p => p.1 = id2)))
  | none => true

/-- Mutable state of the per-entry loop (lines 249-263). -/
structure CheckSt where
  done_flag : Bool
  bad_sh : List (List Char)
  fq_filenames : List (List Char)
deriving DecidableEq, Repr

/-- One iteration of the per-entry loop (lines 249-263).  `good_output f`
abstracts `nfs_exists(f) and os.stat(f).st_size != 0` at probe time.
When the output is missing/empty the code evaluates
`job_id in running_jids`; if `running_jids` was never assigned this
raises `UnboundLocalError` (modelled as `Except.error ()`). -/
def check_step (quivered_dir : List Char) (good_output : List Char → Bool)
    (running : Option (List (List Char))) (st : CheckSt)
    (entry : List Char × List Char) : Except Unit CheckSt :=
  let fq := out_name quivered_dir entry.2
  if good_output fq then
    .ok { st with fq_filenames := st.fq_filenames ++ [fq] }
  else
    match running with
    | none => .error ()
    | some rj =>
      if entry.1 ∈ rj then .ok { st with done_flag := false }
      else .ok { st with bad_sh := st.bad_sh ++ [entry.2] }

/-- Result of one reconciliation pass: the returned status string, the
collected `self.fq_filenames`, and the scripts passed to the local retry
(`bad_sh` if the retry ran, `[]` otherwise). -/
structure CheckResult where
  status : String
  fq_filenames : List (List Char)
  retried : List (List Char)
deriving DecidableEq, Repr

/-- Models `IceQuiverPostprocess.check_quiver_jobs_completion` (lines 210-279).
`retry_ok sh` abstracts `locally_run_failed_quiver_jobs` (defined in
`IceUtils`, outside the excerpt; modelled from the spec: each failed
script is rerun locally exactly once and `retry_ok` says whether the
rerun produced valid output, so `still_bad_sh` is the failed scripts
whose rerun did not). -/
def check_quiver_jobs_completion (quivered_dir : List Char)
    (ledger : List (List Char × List Char)) (use_sge : Bool)
    (qstat_ids : List (List Char)) (good_output : List Char → Bool)
    (retry_ok : List Char → Bool) : Except Unit CheckResult :=
  match (submitted_dict ledger).foldlM
      (check_step quivered_dir good_output (running_jids ledger use_sge qstat_ids))
      ⟨init_done_flag ledger use_sge qstat_ids, [], []⟩ with
  | .error e => .error e
  | .ok st =>
    if st.done_flag then .ok ⟨"DONE", st.fq_filenames, []⟩
    else if st.bad_sh.isEmpty then .ok ⟨"RUNNING", st.fq_filenames, []⟩
    else if (st.bad_sh.filter (fun sh => !(retry_ok sh))).isEmpty then
      .ok ⟨"DONE", st.fq_filenames, st.bad_sh⟩
    else .ok ⟨"FAILED", st.fq_filenames, st.bad_sh⟩

/-- One decimal digit character. -/
def digitChar : Nat → Char
  | 0 => '0'
  | 1 => '1'
  | 2 => '2'
  | 3 => '3'
  | 4 => '4'
  | 5 => '5'
  | 6 => '6'
  | 7 => '7'
  | 8 => '8'
  | 9 => '9'
  | _ => '?'

/-- Python `str(n)` for a non-negative int: standard decimal rendering,
most significant digit first. -/
def natDigits (n : Nat) : List Char :=
  if _h : n < 10 then [digitChar n]
  else natDigits (n / 10) ++ [digitChar (n % 10)]
decreasing_by exact Nat.div_lt_self (by omega) (by omega)

/-- Decimal value of a digit string (left inverse of `natDigits`). -/
def digitsVal (l : List Char) : Nat :=
  l.foldl (fun a c => 10 * a + (c.toNat - 48)) 0

/-- The rendering of the `hq_quiver_min_accuracy` value inside the HQ
file names; Python formats the float, modelled here as the exact rational
in sign / numerator / denominator form. -/
def ratDigits (x : ℚ) : List Char :=
  (if x.num < 0 then ['-'] else []) ++ natDigits x.num.natAbs ++
    '/' :: natDigits x.den

/-- The policy-dependent middle part `{a}_{b}_{c}` of the HQ file names
(`a = qv_trim_5`, `b = qv_trim_3`, `c = hq_quiver_min_accuracy`). -/
def hq_stem (o : IpqOpts) : List Char :=
  natDigits o.qv_trim_5 ++ '_' ::
    (natDigits o.qv_trim_3 ++ '_' :: ratDigits o.hq_quiver_min_accuracy)

/-- Property `quivered_good_fa` (lines 281-288):
`op.join(root_dir, "all_quivered_hq.{a}_{b}_{c}.fasta")`. -/
def quivered_good_fa (root : List Char) (o : IpqOpts) : List Char :=
  root ++ "/all_quivered_hq.".toList ++ hq_stem o ++ ".fasta".toList

/-- Property `quivered_good_fq` (lines 290-297):
`op.join(root_dir, "all_quivered_hq.{a}_{b}_{c}.fastq")`. -/
def quivered_good_fq (root : List Char) (o : IpqOpts) : List Char :=
  root ++ "/all_quivered_hq.".toList ++ hq_stem o ++ ".fastq".toList

/-- Property `quivered_bad_fa` (lines 299-302):
`op.join(root_dir, "all_quivered_lq.fasta")` - no policy values. -/
def quivered_bad_fa (root : List Char) (_o : IpqOpts) : List Char :=
  root ++ "/all_quivered_lq.fasta".toList

/-- Property `quivered_bad_fq` (lines 304-307):
`op.join(root_dir, "all_quivered_lq.fastq")` - no policy values. -/
def quivered_bad_fq (root : List Char) (_o : IpqOpts) : List Char :=
  root ++ "/all_quivered_lq.fastq".toList

/-! ## Theorems -/

theorem dict_insert_mem_keys {κ ν : Type} [DecidableEq κ] (d : List (κ × ν))
    (k : κ) (v : ν) (k2 : κ) :
    k2 ∈ (dict_insert d k v).map Prod.fst ↔ k2 ∈ d.map Prod.fst ∨ k2 = k := by
  unfold dict_insert
  split
  case isTrue h =>
    have hk : k ∈ d.map Prod.fst := by
      rcases List.any_eq_true.mp h with ⟨p, hp, he⟩
      exact List.mem_map.mpr ⟨p, hp, (decide_eq_true_eq.mp he).symm ▸ rfl⟩
    have : (d.map (fun p => if p.1 = k then (k, v) else p)).map Prod.fst
        = d.map Prod.fst := by
      rw [List.map_map]
      refine List.map_congr_left (fun p hp => ?_)
      by_cases hpk : p.1 = k
      · simp [hpk]
      · simp [hpk]
    rw [this]
    constructor
    · exact fun h2 => Or.inl h2
    · rintro (h2 | rfl)
      · exact h2
      · exact hk
  case isFalse h =>
    simp [List.map_append]

theorem dict_insert_fresh {κ ν : Type} [DecidableEq κ] (d : List (κ × ν))
    (k : κ) (v : ν) (hk : k ∉ d.map Prod.fst) :
    dict_insert d k v = d ++ [(k, v)] := by
  unfold dict_insert
  have : d.any (fun p => p.1 = k) = false := by
    rw [List.any_eq_false]
    intro p hp
    simp only [decide_eq_true_eq]
    intro he
    exact hk (List.mem_map.mpr ⟨p, hp, he⟩)
  simp [this]

theorem find_map_overwrite {κ ν : Type} [DecidableEq κ] (d : List (κ × ν))
    (k : κ) (v : ν) :
    (d.map (fun p => if p.1 = k then (k, v) else p)).find? (fun p => p.1 = k)
      = if d.any (fun p => p.1 = k) then some (k, v) else none := by
  induction d with
  | nil => rfl
  | cons p d ih =>
    by_cases hpk : p.1 = k
    · simp only [List.map_cons, if_pos hpk, List.any_cons]
      rw [List.find?_cons_of_pos _ (by simp)]
      simp [hpk]
    · simp only [List.map_cons, if_neg hpk, List.any_cons]
      rw [List.find?_cons_of_neg _ (by simp [hpk]), ih]
      simp only [decide_eq_false hpk, Bool.false_or]

theorem dict_lookup_insert_self {κ ν : Type} [DecidableEq κ] (d : List (κ × ν))
    (k : κ) (v : ν) :
    dict_lookup (dict_insert d k v) k = some v := by
  unfold dict_insert dict_lookup
  split
  case isTrue h =>
    rw [find_map_overwrite, if_pos h]
    rfl
  case isFalse h =>
    have hnone : d.find? (fun p => p.1 = k) = none := by
      rw [List.find?_eq_none]
      intro p hp
      simp only [decide_eq_true_eq]
      intro he
      exact h (List.any_eq_true.mpr ⟨p, hp, by simp [he]⟩)
    rw [List.find?_append, hnone]
    simp [List.find?]

theorem assoc_nodup_value_unique {κ ν : Type} [DecidableEq κ]
    {q : List (κ × ν)} (hnd : (q.map Prod.fst).Nodup) {k : κ} {v1 v2 : ν}
    (h1 : (k, v1) ∈ q) (h2 : (k, v2) ∈ q) : v1 = v2 := by
  induction q with
  | nil => cases h1
  | cons p q ih =>
    rw [List.map_cons, List.nodup_cons] at hnd
    rcases List.mem_cons.mp h1 with he1 | hm1 <;>
      rcases List.mem_cons.mp h2 with he2 | hm2
    · rw [← he1] at he2; exact (Prod.mk.injEq _ _ _ _ ▸ he2).2.symm ▸ rfl
    · exact absurd (List.mem_map.mpr ⟨(k, v2), hm2, by rw [← he1]⟩) hnd.1
    · exact absurd (List.mem_map.mpr ⟨(k, v1), hm1, by rw [← he2]⟩) hnd.1
    · exact ih hnd.2 hm1 hm2

theorem collect_nested_eq_flat (files : List (List FastqRecord))
    (d : List (Nat × FastqRecord)) :
    files.foldlM (fun d rs => rs.foldlM collect_step d) d
      = files.flatten.foldlM collect_step d := by
  induction files generalizing d with
  | nil => rfl
  | cons rs fs ih =>
    rw [List.flatten_cons, List.foldlM_append, List.foldlM_cons]
    cases h : rs.foldlM collect_step d with
    | none => simp [h]
    | some d2 => simp [h, ih]

theorem collect_keys (reads : List FastqRecord) (d q : List (Nat × FastqRecord))
    (h : reads.foldlM collect_step d = some q) (c : Nat) :
    c ∈ q.map Prod.fst ↔
      c ∈ d.map Prod.fst ∨ ∃ r ∈ reads, resolve_cid r.name = some c := by
  induction reads generalizing d with
  | nil =>
    simp only [List.foldlM_nil, pure, Option.some.injEq] at h
    subst h
    simp
  | cons r rs ih =>
    rw [List.foldlM_cons] at h
    cases hres : resolve_cid r.name with
    | none => rw [collect_step, hres] at h; simp at h
    | some c0 =>
      rw [collect_step, hres] at h
      simp only [Option.bind_eq_bind, Option.some_bind] at h
      rw [ih _ h, dict_insert_mem_keys]
      constructor
      · rintro ((hd | rfl) | ⟨r2, hr2, hres2⟩)
        · exact Or.inl hd
        · exact Or.inr ⟨r, List.mem_cons_self r rs, hres⟩
        · exact Or.inr ⟨r2, List.mem_cons_of_mem r hr2, hres2⟩
      · rintro (hd | ⟨r2, hr2, hres2⟩)
        · exact Or.inl (Or.inl hd)
        · rcases List.mem_cons.mp hr2 with rfl | hr2
          · rw [hres] at hres2
            exact Or.inl (Or.inr (Option.some.injEq _ _ ▸ hres2).symm)
          · exact Or.inr ⟨r2, hr2, hres2⟩

theorem collect_entries (reads : List FastqRecord) (d q : List (Nat × FastqRecord))
    (h : reads.foldlM collect_step d = some q)
    (hnd : (reads.map (fun r => resolve_cid r.name)).Nodup)
    (hdisj : ∀ r ∈ reads, ∀ c, resolve_cid r.name = some c → c ∉ d.map Prod.fst) :
    ∀ c r2, (c, r2) ∈ q ↔
      (c, r2) ∈ d ∨ (r2 ∈ reads ∧ resolve_cid r2.name = some c) := by
  induction reads generalizing d with
  | nil =>
    simp only [List.foldlM_nil, pure, Option.some.injEq] at h
    subst h
    simp
  | cons r rs ih =>
    intro c r2
    rw [List.foldlM_cons] at h
    cases hres : resolve_cid r.name with
    | none => rw [collect_step, hres] at h; simp at h
    | some c0 =>
      rw [collect_step, hres] at h
      simp only [Option.bind_eq_bind, Option.some_bind] at h
      rw [List.map_cons, List.nodup_cons] at hnd
      have hfresh : c0 ∉ d.map Prod.fst :=
        hdisj r (List.mem_cons_self r rs) c0 hres
      rw [dict_insert_fresh d c0 r hfresh] at h
      have hdisj2 : ∀ r2 ∈ rs, ∀ c, resolve_cid r2.name = some c →
          c ∉ (d ++ [(c0, r)]).map Prod.fst := by
        intro r3 hr3 c3 hres3 hmem
        rw [List.map_append, List.mem_append] at hmem
        rcases hmem with hmem | hmem
        · exact hdisj r3 (List.mem_cons_of_mem r hr3) c3 hres3 hmem
        · simp only [List.map_cons, List.map_nil, List.mem_singleton] at hmem
          subst hmem
          exact hnd.1 (List.mem_map.mpr ⟨r3, hr3, by rw [hres3, hres]⟩)
      rw [ih _ h hnd.2 hdisj2, List.mem_append]
      have hrnotrs : r ∉ rs := by
        intro hmem
        exact hnd.1 (List.mem_map.mpr ⟨r, hmem, rfl⟩)
      constructor
      · rintro ((hd | hone) | ⟨hmem, hres2⟩)
        · exact Or.inl hd
        · simp only [List.mem_singleton, Prod.mk.injEq] at hone
          refine Or.inr ⟨hone.2 ▸ List.mem_cons_self r rs, ?_⟩
          rw [hone.2, hres, hone.1]
        · exact Or.inr ⟨List.mem_cons_of_mem r hmem, hres2⟩
      · rintro (hd | ⟨hmem, hres2⟩)
        · exact Or.inl (Or.inl hd)
        · rcases List.mem_cons.mp hmem with rfl | hmem
          · rw [hres] at hres2
            exact Or.inl (Or.inr (by simp [(Option.some.injEq _ _ ▸ hres2)]))
          · exact Or.inr ⟨hmem, hres2⟩

theorem mem_good_list (o : IpqOpts) (uc : Nat → List String)
    (q : List (Nat × FastqRecord)) (c : Nat) :
    c ∈ good_list o uc q ↔ ∃ p ∈ q, p.1 = c ∧ good_cond o uc p := by
  simp only [good_list, List.mem_map, List.mem_filter, decide_eq_true_eq]
  constructor
  · rintro ⟨p, ⟨hp, hg⟩, he⟩
    exact ⟨p, hp, he, hg⟩
  · rintro ⟨p, hp, he, hg⟩
    exact ⟨p, ⟨hp, hg⟩, he⟩

theorem mem_hq_list (o : IpqOpts) (uc : Nat → List String)
    (q : List (Nat × FastqRecord)) (c : Nat) :
    c ∈ hq_list o uc q ↔ (∃ r, (c, r) ∈ q) ∧ c ∈ good_list o uc q := by
  simp only [hq_list, List.mem_map, List.mem_filter, decide_eq_true_eq]
  constructor
  · rintro ⟨⟨p1, p2⟩, ⟨hp, hg⟩, he⟩
    cases he
    exact ⟨⟨p2, hp⟩, hg⟩
  · rintro ⟨⟨r, hr⟩, hg⟩
    exact ⟨(c, r), ⟨hr, hg⟩, rfl⟩

theorem mem_lq_list (o : IpqOpts) (uc : Nat → List String)
    (q : List (Nat × FastqRecord)) (c : Nat) :
    c ∈ lq_list o uc q ↔ (∃ r, (c, r) ∈ q) ∧ c ∉ good_list o uc q := by
  simp only [lq_list, List.mem_map, List.mem_filter, decide_eq_true_eq]
  constructor
  · rintro ⟨⟨p1, p2⟩, ⟨hp, hg⟩, he⟩
    cases he
    exact ⟨⟨p2, hp⟩, hg⟩
  · rintro ⟨⟨r, hr⟩, hg⟩
    exact ⟨(c, r), ⟨hr, hg⟩, rfl⟩

/-- C1: for every quivered read whose trimmed window is assessable
(window length > 0), its cluster is classified HQ iff the computed
accuracy is at least `hq_quiver_min_accuracy` (inclusive threshold) and
the cluster's FullLengthSupport entry has length at least 2; in
particular a cluster whose FullLengthSupport entry has length exactly 1
is never HQ. -/
theorem C1_hq_iff_accuracy_and_support (o : IpqOpts) (uc : Nat → List String)
    (q : List (Nat × FastqRecord)) (cid : Nat) (r : FastqRecord)
    (hnd : (q.map Prod.fst).Nodup) (hmem : (cid, r) ∈ q)
    (hwin : 0 < qv_len r.quality o.qv_trim_5 o.qv_trim_3) :
    (cid ∈ hq_list o uc q ↔
      ((o.hq_quiver_min_accuracy : ℝ) ≤ accuracy r.quality o.qv_trim_5 o.qv_trim_3 ∧
        2 ≤ (uc cid).length)) ∧
    ((uc cid).length = 1 → cid ∉ hq_list o uc q) := by
  have hiff : cid ∈ hq_list o uc q ↔
      ((o.hq_quiver_min_accuracy : ℝ) ≤ accuracy r.quality o.qv_trim_5 o.qv_trim_3 ∧
        2 ≤ (uc cid).length) := by
    rw [mem_hq_list, mem_good_list]
    constructor
    · rintro ⟨-, ⟨p1, p2⟩, hp, he, hg⟩
      rcases he
      have : p2 = r := assoc_nodup_value_unique hnd hp hmem
      subst this
      exact hg.2
    · rintro ⟨hacc, hsup⟩
      exact ⟨⟨r, hmem⟩, (cid, r), hmem, rfl, Nat.pos_iff_ne_zero.mp hwin,
        hacc, hsup⟩
  refine ⟨hiff, fun hone hin => ?_⟩
  have := (hiff.mp hin).2
  omega

/-- Witness for C1 at a concrete input. -/
theorem C1_witness :
    (((([(3, (⟨[], [], [0, 0, 0]⟩ : FastqRecord))]).map Prod.fst).Nodup) ∧
      ((3, (⟨[], [], [0, 0, 0]⟩ : FastqRecord)) ∈
        [(3, (⟨[], [], [0, 0, 0]⟩ : FastqRecord))]) ∧
      0 < qv_len [0, 0, 0] 1 1) ∧
    ((3 ∈ hq_list ⟨1, 1, 1/2⟩ (fun _ => ["x", "y"])
        [(3, (⟨[], [], [0, 0, 0]⟩ : FastqRecord))] ↔
      (((⟨1, 1, 1/2⟩ : IpqOpts).hq_quiver_min_accuracy : ℝ) ≤
          accuracy [0, 0, 0] 1 1 ∧
        2 ≤ ((fun _ : Nat => ["x", "y"]) 3).length)) ∧
      (((fun _ : Nat => ["x", "y"]) 3).length = 1 →
        3 ∉ hq_list ⟨1, 1, 1/2⟩ (fun _ => ["x", "y"])
          [(3, (⟨[], [], [0, 0, 0]⟩ : FastqRecord))])) :=
  ⟨⟨by decide, by decide, by decide⟩,
    C1_hq_iff_accuracy_and_support ⟨1, 1, 1/2⟩ (fun _ => ["x", "y"])
      [(3, ⟨[], [], [0, 0, 0]⟩)] 3 ⟨[], [], [0, 0, 0]⟩
      (by decide) (by decide) (by decide)⟩

/-- C5: a quivered read whose sequence is too short for the trims
(`qv_trim_5 + qv_trim_3 >= length`, i.e. window length <= 0) is
classified LQ unconditionally, regardless of quality values or
full-length support. -/
theorem C5_unassessable_is_lq (o : IpqOpts) (uc : Nat → List String)
    (q : List (Nat × FastqRecord)) (cid : Nat) (r : FastqRecord)
    (hnd : (q.map Prod.fst).Nodup) (hmem : (cid, r) ∈ q)
    (hlen : r.quality.length ≤ o.qv_trim_5 + o.qv_trim_3) :
    cid ∈ lq_list o uc q ∧ cid ∉ hq_list o uc q := by
  have hzero : qv_len r.quality o.qv_trim_5 o.qv_trim_3 = 0 := by
    unfold qv_len; omega
  have hnotgood : cid ∉ good_list o uc q := by
    rw [mem_good_list]
    rintro ⟨⟨p1, p2⟩, hp, he, hg⟩
    rcases he
    have : p2 = r := assoc_nodup_value_unique hnd hp hmem
    subst this
    exact hg.1 hzero
  refine ⟨(mem_lq_list o uc q cid).mpr ⟨⟨r, hmem⟩, hnotgood⟩, fun hin => ?_⟩
  exact hnotgood ((mem_hq_list o uc q cid).mp hin).2

/-- Witness for C5 at a concrete input (length 1, trims 1 and 0,
uniform perfect support would not matter). -/
theorem C5_witness :
    (((([(4, (⟨[], [], [0]⟩ : FastqRecord))]).map Prod.fst).Nodup) ∧
      ((4, (⟨[], [], [0]⟩ : FastqRecord)) ∈
        [(4, (⟨[], [], [0]⟩ : FastqRecord))]) ∧
      ([0] : List Nat).length ≤ 1 + 0) ∧
    (4 ∈ lq_list ⟨1, 0, 1/2⟩ (fun _ => ["x", "y"])
        [(4, (⟨[], [], [0]⟩ : FastqRecord))] ∧
      4 ∉ hq_list ⟨1, 0, 1/2⟩ (fun _ => ["x", "y"])
        [(4, (⟨[], [], [0]⟩ : FastqRecord))]) :=
  ⟨⟨by decide, by decide, by decide⟩,
    C5_unassessable_is_lq ⟨1, 0, 1/2⟩ (fun _ => ["x", "y"])
      [(4, ⟨[], [], [0]⟩)] 4 ⟨[], [], [0]⟩ (by decide) (by decide) (by decide)⟩

/-- C2: every cluster id observed among the completed quivered reads is
written to exactly one of HQ or LQ: observed ids are exactly the union
of the two output id lists, and no id is in both. -/
theorem C2_partition (o : IpqOpts) (uc : Nat → List String)
    (files : List (List FastqRecord)) (q : List (Nat × FastqRecord))
    (h : collect_quivered files = some q) (cid : Nat) :
    ((∃ rs ∈ files, ∃ r ∈ rs, resolve_cid r.name = some cid) ↔
      (cid ∈ hq_list o uc q ∨ cid ∈ lq_list o uc q)) ∧
    ¬ (cid ∈ hq_list o uc q ∧ cid ∈ lq_list o uc q) := by
  rw [collect_quivered, collect_nested_eq_flat] at h
  have hkeys := collect_keys files.flatten [] q h cid
  simp only [List.map_nil, List.not_mem_nil, false_or] at hkeys
  have hE : (∃ r, (cid, r) ∈ q) ↔
      ∃ r ∈ files.flatten, resolve_cid r.name = some cid := by
    rw [← hkeys]
    constructor
    · rintro ⟨r, hr⟩
      exact List.mem_map.mpr ⟨(cid, r), hr, rfl⟩
    · intro hm
      rcases List.mem_map.mp hm with ⟨⟨p1, p2⟩, hp, he⟩
      rcases he
      exact ⟨p2, hp⟩
  have hflat : (∃ rs ∈ files, ∃ r ∈ rs, resolve_cid r.name = some cid) ↔
      ∃ r ∈ files.flatten, resolve_cid r.name = some cid := by
    constructor
    · rintro ⟨rs, hrs, r, hr, hres⟩
      exact ⟨r, List.mem_flatten.mpr ⟨rs, hrs, hr⟩, hres⟩
    · rintro ⟨r, hr, hres⟩
      rcases List.mem_flatten.mp hr with ⟨rs, hrs, hr2⟩
      exact ⟨rs, hrs, r, hr2, hres⟩
  constructor
  · rw [hflat, ← hE, mem_hq_list, mem_lq_list]
    by_cases hG : cid ∈ good_list o uc q
    · simp [hG]
    · simp [hG]
  · rw [mem_hq_list, mem_lq_list]
    rintro ⟨⟨-, hG⟩, -, hnG⟩
    exact hnG hG

/-- Witness for C2 at a concrete two-file input. -/
theorem C2_witness :
    (collect_quivered [[⟨"c1|x".toList, [], [0]⟩], [⟨"c2|y".toList, [], [0]⟩]] =
      some [(1, ⟨"c1|x".toList, [], [0]⟩), (2, ⟨"c2|y".toList, [], [0]⟩)]) ∧
    (((∃ rs ∈ [[(⟨"c1|x".toList, [], [0]⟩ : FastqRecord)],
          [(⟨"c2|y".toList, [], [0]⟩ : FastqRecord)]], ∃ r ∈ rs,
        resolve_cid r.name = some 1) ↔
      (1 ∈ hq_list ⟨100, 30, 99/100⟩ (fun _ => [])
          [(1, ⟨"c1|x".toList, [], [0]⟩), (2, ⟨"c2|y".toList, [], [0]⟩)] ∨
        1 ∈ lq_list ⟨100, 30, 99/100⟩ (fun _ => [])
          [(1, ⟨"c1|x".toList, [], [0]⟩), (2, ⟨"c2|y".toList, [], [0]⟩)])) ∧
      ¬ (1 ∈ hq_list ⟨100, 30, 99/100⟩ (fun _ => [])
          [(1, ⟨"c1|x".toList, [], [0]⟩), (2, ⟨"c2|y".toList, [], [0]⟩)] ∧
        1 ∈ lq_list ⟨100, 30, 99/100⟩ (fun _ => [])
          [(1, ⟨"c1|x".toList, [], [0]⟩), (2, ⟨"c2|y".toList, [], [0]⟩)])) :=
  ⟨by decide,
    C2_partition ⟨100, 30, 99/100⟩ (fun _ => [])
      [[⟨"c1|x".toList, [], [0]⟩], [⟨"c2|y".toList, [], [0]⟩]]
      [(1, ⟨"c1|x".toList, [], [0]⟩), (2, ⟨"c2|y".toList, [], [0]⟩)]
      (by decide) 1⟩

set_option maxHeartbeats 4000000 in
/-- C8: with the QVPolicy and the support mapping held fixed, and under
the documented data-model invariant that at most one completed quivered
read exists per cluster id, the HQ/LQ membership obtained from the
completed files is invariant under permuting the file order. -/
theorem C8_permutation_invariance (o : IpqOpts) (uc : Nat → List String)
    (files1 files2 : List (List FastqRecord)) (q1 q2 : List (Nat × FastqRecord))
    (h1 : collect_quivered files1 = some q1)
    (h2 : collect_quivered files2 = some q2)
    (hperm : files1.Perm files2)
    (hnd : (files1.flatten.map (fun r => resolve_cid r.name)).Nodup) :
    (∀ cid, cid ∈ hq_list o uc q1 ↔ cid ∈ hq_list o uc q2) ∧
    (∀ cid, cid ∈ lq_list o uc q1 ↔ cid ∈ lq_list o uc q2) := by
  rw [collect_quivered, collect_nested_eq_flat] at h1 h2
  have hpf : files1.flatten.Perm files2.flatten := hperm.flatten
  have hnd2 : (files2.flatten.map (fun r => resolve_cid r.name)).Nodup :=
    ((hpf.map (fun r => resolve_cid r.name)).nodup_iff).mp hnd
  have he1 := collect_entries files1.flatten [] q1 h1 hnd (by simp)
  have he2 := collect_entries files2.flatten [] q2 h2 hnd2 (by simp)
  have hset : ∀ c r, (c, r) ∈ q1 ↔ (c, r) ∈ q2 := by
    intro c r
    rw [he1 c r, he2 c r, hpf.mem_iff]
  have hgood : ∀ c, c ∈ good_list o uc q1 ↔ c ∈ good_list o uc q2 := by
    intro c
    rw [mem_good_list, mem_good_list]
    constructor
    · rintro ⟨⟨p1, p2⟩, hp, he, hg⟩
      exact ⟨(p1, p2), (hset p1 p2).mp hp, he, hg⟩
    · rintro ⟨⟨p1, p2⟩, hp, he, hg⟩
      exact ⟨(p1, p2), (hset p1 p2).mpr hp, he, hg⟩
  constructor
  · intro cid
    rw [mem_hq_list, mem_hq_list, hgood cid]
    constructor
    · rintro ⟨⟨r, hr⟩, hg⟩
      exact ⟨⟨r, (hset cid r).mp hr⟩, hg⟩
    · rintro ⟨⟨r, hr⟩, hg⟩
      exact ⟨⟨r, (hset cid r).mpr hr⟩, hg⟩
  · intro cid
    rw [mem_lq_list, mem_lq_list, hgood cid]
    constructor
    · rintro ⟨⟨r, hr⟩, hg⟩
      exact ⟨⟨r, (hset cid r).mp hr⟩, hg⟩
    · rintro ⟨⟨r, hr⟩, hg⟩
      exact ⟨⟨r, (hset cid r).mpr hr⟩, hg⟩

/-- Witness for C8: swapping the two completed files. -/
theorem C8_witness :
    ((collect_quivered [[⟨"c1|x".toList, [], [0]⟩], [⟨"c2|y".toList, [], [0]⟩]] =
        some [(1, ⟨"c1|x".toList, [], [0]⟩), (2, ⟨"c2|y".toList, [], [0]⟩)]) ∧
      (collect_quivered [[⟨"c2|y".toList, [], [0]⟩], [⟨"c1|x".toList, [], [0]⟩]] =
        some [(2, ⟨"c2|y".toList, [], [0]⟩), (1, ⟨"c1|x".toList, [], [0]⟩)]) ∧
      ([[(⟨"c1|x".toList, [], [0]⟩ : FastqRecord)],
          [(⟨"c2|y".toList, [], [0]⟩ : FastqRecord)]].Perm
        [[⟨"c2|y".toList, [], [0]⟩], [⟨"c1|x".toList, [], [0]⟩]]) ∧
      (([[(⟨"c1|x".toList, [], [0]⟩ : FastqRecord)],
          [(⟨"c2|y".toList, [], [0]⟩ : FastqRecord)]].flatten.map
        (fun r => resolve_cid r.name)).Nodup)) ∧
    ((∀ cid, cid ∈ hq_list ⟨100, 30, 99/100⟩ (fun _ => [])
          [(1, ⟨"c1|x".toList, [], [0]⟩), (2, ⟨"c2|y".toList, [], [0]⟩)] ↔
        cid ∈ hq_list ⟨100, 30, 99/100⟩ (fun _ => [])
          [(2, ⟨"c2|y".toList, [], [0]⟩), (1, ⟨"c1|x".toList, [], [0]⟩)]) ∧
      (∀ cid, cid ∈ lq_list ⟨100, 30, 99/100⟩ (fun _ => [])
          [(1, ⟨"c1|x".toList, [], [0]⟩), (2, ⟨"c2|y".toList, [], [0]⟩)] ↔
        cid ∈ lq_list ⟨100, 30, 99/100⟩ (fun _ => [])
          [(2, ⟨"c2|y".toList, [], [0]⟩), (1, ⟨"c1|x".toList, [], [0]⟩)])) :=
  ⟨⟨by decide, by decide, by decide, by decide⟩,
    C8_permutation_invariance ⟨100, 30, 99/100⟩ (fun _ => [])
      [[⟨"c1|x".toList, [], [0]⟩], [⟨"c2|y".toList, [], [0]⟩]]
      [[⟨"c2|y".toList, [], [0]⟩], [⟨"c1|x".toList, [], [0]⟩]]
      [(1, ⟨"c1|x".toList, [], [0]⟩), (2, ⟨"c2|y".toList, [], [0]⟩)]
      [(2, ⟨"c2|y".toList, [], [0]⟩), (1, ⟨"c1|x".toList, [], [0]⟩)]
      (by decide) (by decide) (by decide) (by decide)⟩

/-- C3 counterexample: two quivered reads in different completed files
resolving to the same cluster id 5 are accepted silently; collection
returns a normal dictionary holding the later read, instead of failing
with a data-integrity error. -/
theorem C3_counterexample :
    collect_quivered [[⟨"c5/1|a".toList, [], [3]⟩], [⟨"c5/2|b".toList, [], [7]⟩]]
      = some [(5, ⟨"c5/2|b".toList, [], [7]⟩)] := by
  decide

/-- C3 amended: duplicate cluster ids are silently accepted; the read
encountered last in file order overwrites all earlier reads with the
same resolved cluster id, and classification proceeds on the surviving
read. -/
theorem C3_amended_last_wins (files : List (List FastqRecord)) (r : FastqRecord)
    (cid : Nat) (q : List (Nat × FastqRecord))
    (hres : resolve_cid r.name = some cid)
    (h : collect_quivered (files ++ [[r]]) = some q) :
    dict_lookup q cid = some r := by
  rw [collect_quivered, collect_nested_eq_flat, List.flatten_append] at h
  simp only [List.flatten_cons, List.flatten_nil, List.append_nil] at h
  rw [List.foldlM_append] at h
  cases hd : files.flatten.foldlM collect_step [] with
  | none => rw [hd] at h; simp at h
  | some d0 =>
    rw [hd] at h
    simp only [Option.bind_eq_bind, Option.some_bind, List.foldlM_cons,
      List.foldlM_nil] at h
    rw [collect_step, hres] at h
    simp only [Option.bind_eq_bind, Option.some_bind, pure,
      Option.some.injEq] at h
    rw [← h]
    exact dict_lookup_insert_self d0 cid r

/-- Witness for C3's amended statement at a concrete input. -/
theorem C3_amended_witness :
    ((resolve_cid ("c5/2|b".toList) = some 5) ∧
      (collect_quivered ([[⟨"c5/1|a".toList, [], [3]⟩]] ++
          [[⟨"c5/2|b".toList, [], [7]⟩]]) =
        some [(5, ⟨"c5/2|b".toList, [], [7]⟩)])) ∧
    dict_lookup [(5, (⟨"c5/2|b".toList, [], [7]⟩ : FastqRecord))] 5 =
      some ⟨"c5/2|b".toList, [], [7]⟩ :=
  ⟨⟨by decide, by decide⟩,
    C3_amended_last_wins [[⟨"c5/1|a".toList, [], [3]⟩]]
      ⟨"c5/2|b".toList, [], [7]⟩ 5 [(5, ⟨"c5/2|b".toList, [], [7]⟩)]
      (by decide) (by decide)⟩

/-- C4: at the failing input `quality = [0]`, `qv_trim_5 = 0`,
`qv_trim_3 = 0` (window length 1 > 0), the code's accuracy sums the empty
Python slice `q[0:-0] = q[0:0]` and returns 1, while the claimed formula
over the window (drop 0 from each end) gives 0; the two disagree. -/
theorem C4_trim3_zero_divergence :
    accuracy [0] 0 0 = 1 ∧ spec_accuracy [0] 0 0 = 0 ∧
    accuracy [0] 0 0 ≠ spec_accuracy [0] 0 0 := by
  have hcode : accuracy [0] 0 0 = 1 := by
    simp [accuracy, err_sum, pySlice, qv_len]
  have hqv : phred_to_qv 0 = 1 := by
    simp [phred_to_qv, Real.rpow_zero]
  have hspec : spec_accuracy [0] 0 0 = 0 := by
    simp [spec_accuracy, hqv]
  refine ⟨hcode, hspec, ?_⟩
  rw [hcode, hspec]
  norm_num

/-- C9: `nfs_exists` performs at most two probes; a second probe happens
exactly when the first reported file-not-found, and only then does it
sleep the fixed 15 seconds; an existing directory is reported as
existing on either probe. -/
theorem C9_probe_policy :
    ∀ p1 p2 : ProbeResult,
      (nfs_exists p1 p2).2.1 ≤ 2 ∧
      ((nfs_exists p1 p2).2.1 = 2 ↔ p1 = ProbeResult.noent) ∧
      ((nfs_exists p1 p2).2.2 = if p1 = ProbeResult.noent then 15 else 0) ∧
      ((nfs_exists p1 p2).1 = true ↔
        (p1 = ProbeResult.ok ∨ p1 = ProbeResult.isdir ∨
          (p1 = ProbeResult.noent ∧
            (p2 = ProbeResult.ok ∨ p2 = ProbeResult.isdir)))) := by
  decide

/-- C6: two concrete reconciliation runs contradicting the claimed
MISSING_OUTPUT handling.  First: a single scheduler-submitted entry whose
output is empty and whose job id is not in the running set; `done_flag`
is never cleared by a missing-output entry, so the pass returns DONE
without any retry (`retried = []`) and without the file.  Second: a
local-only ledger with a missing output crashes (UnboundLocalError on
`running_jids`) instead of classifying and retrying. -/
theorem C6_missing_output_not_retried :
    (check_quiver_jobs_completion "quivered".toList
        [("123".toList, "a.sh".toList)] true [] (fun _ => false) (fun _ => true) =
      Except.ok ⟨"DONE", [], []⟩) ∧
    (check_quiver_jobs_completion "quivered".toList
        [("local".toList, "a.sh".toList)] true [] (fun _ => false) (fun _ => true) =
      Except.error ()) := by
  exact ⟨by rfl, by rfl⟩

theorem except_bind_ok {α β : Type} {e : Except Unit α} {f : α → Except Unit β}
    {b : β} (h : (e >>= f) = .ok b) : ∃ a, e = .ok a ∧ f a = .ok b := by
  cases e with
  | error u => exact Except.noConfusion h
  | ok a => exact ⟨a, rfl, h⟩

theorem check_fold_inv (qd : List Char) (good_output : List Char → Bool)
    (running : Option (List (List Char)))
    (entries : List (List Char × List Char)) (st0 st : CheckSt)
    (h : entries.foldlM (check_step qd good_output running) st0 = .ok st)
    (h1 : ∀ f ∈ st0.fq_filenames, good_output f = true)
    (h2 : ∀ sh ∈ st0.bad_sh, good_output (out_name qd sh) = false) :
    (∀ f ∈ st.fq_filenames, good_output f = true) ∧
    (∀ sh ∈ st.bad_sh, good_output (out_name qd sh) = false) := by
  induction entries generalizing st0 with
  | nil =>
    simp only [List.foldlM_nil, pure, Except.pure, Except.ok.injEq] at h
    subst h
    exact ⟨h1, h2⟩
  | cons e es ih =>
    rw [List.foldlM_cons] at h
    obtain ⟨st1, hstep, hrest⟩ := except_bind_ok h
    simp only [check_step] at hstep
    split at hstep
    next hg =>
      injection hstep with hstep
      subst hstep
      refine ih _ hrest ?_ h2
      intro f hf
      rcases List.mem_append.mp hf with hf | hf
      · exact h1 f hf
      · rw [List.mem_singleton.mp hf]
        exact hg
    next hg =>
      split at hstep
      next => exact Except.noConfusion hstep
      next rj =>
        split at hstep
        next hm =>
          injection hstep with hstep
          subst hstep
          exact ih _ hrest h1 h2
        next hm =>
          injection hstep with hstep
          subst hstep
          refine ih _ hrest h1 ?_
          intro sh hsh
          rcases List.mem_append.mp hsh with hsh | hsh
          · exact h2 sh hsh
          · rw [List.mem_singleton.mp hsh]
            revert hg
            cases good_output (out_name qd e.2) <;> simp

/-- C10: when a reconciliation pass returns after running the local
retry (`retried` nonempty) with status DONE, `fq_filenames` contains
only files whose output was already valid at probe time; the retried
scripts' output files are not in it; and every cluster id in the HQ/LQ
partition that `run()` subsequently computes from `fq_filenames` comes
from a read of one of those files, so clusters only present in the
retried jobs' outputs are absent. -/
theorem C10_retry_done_excludes_retried (qd : List Char)
    (ledger : List (List Char × List Char)) (use_sge : Bool)
    (qstat_ids : List (List Char)) (good_output retry_ok : List Char → Bool)
    (res : CheckResult) (o : IpqOpts) (uc : Nat → List String)
    (contents : List Char → List FastqRecord) (q : List (Nat × FastqRecord))
    (h : check_quiver_jobs_completion qd ledger use_sge qstat_ids good_output
      retry_ok = .ok res)
    (hstat : res.status = "DONE")
    (hret : res.retried ≠ [])
    (hcol : collect_quivered (res.fq_filenames.map contents) = some q) :
    (∀ f ∈ res.fq_filenames, good_output f = true) ∧
    (∀ sh ∈ res.retried, out_name qd sh ∉ res.fq_filenames) ∧
    (∀ cid, (cid ∈ hq_list o uc q ∨ cid ∈ lq_list o uc q) →
      ∃ f ∈ res.fq_filenames, ∃ r ∈ contents f, resolve_cid r.name = some cid) := by
  rw [check_quiver_jobs_completion] at h
  split at h
  next e heq => exact Except.noConfusion h
  next st heq =>
    have hinv := check_fold_inv qd good_output
      (running_jids ledger use_sge qstat_ids) (submitted_dict ledger)
      ⟨init_done_flag ledger use_sge qstat_ids, [], []⟩ st heq
      (by intro f hf; exact absurd hf (List.not_mem_nil f))
      (by intro sh hsh; exact absurd hsh (List.not_mem_nil sh))
    split at h
    next hdone =>
      injection h with h
      subst h
      exact absurd rfl hret
    next hdone =>
      split at h
      next hempty =>
        injection h with h
        subst h
        exact absurd rfl hret
      next hempty =>
        split at h
        next hstill =>
          injection h with h
          subst h
          refine ⟨hinv.1, ?_, ?_⟩
          · intro sh hsh hmem
            have hfalse := hinv.2 sh hsh
            have htrue := hinv.1 _ hmem
            rw [htrue] at hfalse
            exact Bool.noConfusion hfalse
          · intro cid hcid
            have hex : ∃ r, (cid, r) ∈ q := by
              rcases hcid with hcid | hcid
              · exact ((mem_hq_list o uc q cid).mp hcid).1
              · exact ((mem_lq_list o uc q cid).mp hcid).1
            obtain ⟨r, hr⟩ := hex
            have hkey : cid ∈ q.map Prod.fst :=
              List.mem_map.mpr ⟨(cid, r), hr, rfl⟩
            rw [collect_quivered, collect_nested_eq_flat] at hcol
            have hobs := (collect_keys _ [] q hcol cid).mp hkey
            simp only [List.map_nil, List.not_mem_nil, false_or] at hobs
            obtain ⟨r2, hr2, hres2⟩ := hobs
            rcases List.mem_flatten.mp hr2 with ⟨l, hl, hrl⟩
            rcases List.mem_map.mp hl with ⟨f, hf, rfl⟩
            exact ⟨f, hf, r2, hrl, hres2⟩
        next hstill =>
          injection h with h
          subst h
          simp at hstat

/-- Witness for C10: three ledger entries - one good output, one failed
and retried successfully, one still running - so the pass returns DONE
via the retry branch. -/
theorem C10_witness :
    ((check_quiver_jobs_completion "quivered".toList
        [("100".toList, "a.sh".toList), ("200".toList, "b.sh".toList),
          ("300".toList, "c.sh".toList)] true ["300".toList]
        (fun f => f = "quivered/a.quivered.fq".toList) (fun _ => true) =
      Except.ok ⟨"DONE", ["quivered/a.quivered.fq".toList], ["b.sh".toList]⟩) ∧
      ((⟨"DONE", ["quivered/a.quivered.fq".toList], ["b.sh".toList]⟩ :
          CheckResult).status = "DONE") ∧
      ((⟨"DONE", ["quivered/a.quivered.fq".toList], ["b.sh".toList]⟩ :
          CheckResult).retried ≠ []) ∧
      (collect_quivered ((["quivered/a.quivered.fq".toList]).map
          (fun _ => ([] : List FastqRecord))) = some [])) ∧
    ((∀ f ∈ ["quivered/a.quivered.fq".toList],
        (fun f2 : List Char => decide (f2 = "quivered/a.quivered.fq".toList)) f
          = true) ∧
      (∀ sh ∈ ["b.sh".toList],
        out_name "quivered".toList sh ∉ ["quivered/a.quivered.fq".toList]) ∧
      (∀ cid, (cid ∈ hq_list ⟨100, 30, 99/100⟩ (fun _ => []) [] ∨
          cid ∈ lq_list ⟨100, 30, 99/100⟩ (fun _ => []) []) →
        ∃ f ∈ ["quivered/a.quivered.fq".toList],
          ∃ r ∈ (fun _ : List Char => ([] : List FastqRecord)) f,
            resolve_cid r.name = some cid)) :=
  ⟨⟨by rfl, by rfl, by decide, by rfl⟩,
    C10_retry_done_excludes_retried "quivered".toList
      [("100".toList, "a.sh".toList), ("200".toList, "b.sh".toList),
        ("300".toList, "c.sh".toList)] true ["300".toList]
      (fun f => f = "quivered/a.quivered.fq".toList) (fun _ => true)
      ⟨"DONE", ["quivered/a.quivered.fq".toList], ["b.sh".toList]⟩
      ⟨100, 30, 99/100⟩ (fun _ => []) (fun _ => []) []
      (by rfl) (by rfl) (by decide) (by rfl)⟩

theorem digitChar_toNat (d : Nat) (h : d < 10) : (digitChar d).toNat = 48 + d := by
  interval_cases d <;> rfl

theorem digitChar_isDigit (d : Nat) (h : d < 10) : (digitChar d).isDigit = true := by
  interval_cases d <;> rfl

theorem digitsVal_natDigits (n : Nat) : digitsVal (natDigits n) = n := by
  induction n using Nat.strong_induction_on with
  | _ n ih =>
    rw [natDigits]
    split
    next h =>
      rw [digitsVal, List.foldl_cons, List.foldl_nil, digitChar_toNat n h]
      omega
    next h =>
      rw [digitsVal, List.foldl_append, List.foldl_cons, List.foldl_nil]
      have hrec := ih (n / 10) (Nat.div_lt_self (by omega) (by omega))
      rw [digitsVal] at hrec
      rw [hrec, digitChar_toNat (n % 10) (Nat.mod_lt n (by omega))]
      omega

theorem natDigits_inj {m n : Nat} (h : natDigits m = natDigits n) : m = n := by
  have hm := digitsVal_natDigits m
  rw [h, digitsVal_natDigits] at hm
  omega

theorem natDigits_all_digit (n : Nat) :
    ∀ c ∈ natDigits n, c.isDigit = true := by
  induction n using Nat.strong_induction_on with
  | _ n ih =>
    intro c hc
    rw [natDigits] at hc
    split at hc
    next h =>
      rw [List.mem_singleton.mp hc]
      exact digitChar_isDigit n h
    next h =>
      rcases List.mem_append.mp hc with hc | hc
      · exact ih (n / 10) (Nat.div_lt_self (by omega) (by omega)) c hc
      · rw [List.mem_singleton.mp hc]
        exact digitChar_isDigit (n % 10) (Nat.mod_lt n (by omega))

theorem natDigits_ne_nil (n : Nat) : natDigits n ≠ [] := by
  rw [natDigits]
  split
  · simp
  · simp

theorem not_mem_natDigits (c : Char) (hc : c.isDigit = false) (n : Nat) :
    c ∉ natDigits n := by
  intro hm
  rw [natDigits_all_digit n c hm] at hc
  exact Bool.noConfusion hc

theorem split_unique (sep : Char) (x1 y1 : List Char) (x2 y2 : List Char)
    (h1 : sep ∉ x1) (h2 : sep ∉ x2)
    (he : x1 ++ sep :: y1 = x2 ++ sep :: y2) : x1 = x2 ∧ y1 = y2 := by
  induction x1 generalizing x2 with
  | nil =>
    cases x2 with
    | nil => simpa using he
    | cons c x2 =>
      rw [List.nil_append, List.cons_append, List.cons.injEq] at he
      exact absurd (he.1 ▸ List.mem_cons_self c x2) h2
  | cons c x1 ih =>
    cases x2 with
    | nil =>
      rw [List.nil_append, List.cons_append, List.cons.injEq] at he
      exact absurd (he.1 ▸ List.mem_cons_self c x1) h1
    | cons c2 x2 =>
      rw [List.cons_append, List.cons_append, List.cons.injEq] at he
      have hih := ih x2 (fun hm => h1 (List.mem_cons_of_mem c hm))
        (fun hm => h2 (List.mem_cons_of_mem c2 hm)) he.2
      exact ⟨by rw [he.1, hih.1], hih.2⟩

theorem ratDigits_inj {a b : ℚ} (h : ratDigits a = ratDigits b) : a = b := by
  have hsA : '/' ∉ natDigits a.num.natAbs := not_mem_natDigits '/' rfl _
  have hsB : '/' ∉ natDigits b.num.natAbs := not_mem_natDigits '/' rfl _
  unfold ratDigits at h
  by_cases hna : a.num < 0 <;> by_cases hnb : b.num < 0
  · rw [if_pos hna, if_pos hnb] at h
    simp only [List.cons_append, List.nil_append, List.cons.injEq, true_and] at h
    obtain ⟨hnum, hden⟩ := split_unique '/' _ _ _ _ hsA hsB h
    have h1 := natDigits_inj hnum
    have h2 := natDigits_inj hden
    refine Rat.ext ?_ h2
    omega
  · rw [if_pos hna, if_neg hnb] at h
    simp only [List.cons_append, List.nil_append] at h
    cases hnd : natDigits b.num.natAbs with
    | nil => exact absurd hnd (natDigits_ne_nil _)
    | cons c t =>
      rw [hnd, List.cons_append, List.cons.injEq] at h
      have hdig := natDigits_all_digit b.num.natAbs c
        (by rw [hnd]; exact List.mem_cons_self c t)
      rw [← h.1] at hdig
      exact absurd hdig (by decide)
  · rw [if_neg hna, if_pos hnb] at h
    simp only [List.cons_append, List.nil_append] at h
    cases hnd : natDigits a.num.natAbs with
    | nil => exact absurd hnd (natDigits_ne_nil _)
    | cons c t =>
      rw [hnd, List.cons_append, List.cons.injEq] at h
      have hdig := natDigits_all_digit a.num.natAbs c
        (by rw [hnd]; exact List.mem_cons_self c t)
      rw [h.1] at hdig
      exact absurd hdig (by decide)
  · rw [if_neg hna, if_neg hnb] at h
    simp only [List.nil_append] at h
    obtain ⟨hnum, hden⟩ := split_unique '/' _ _ _ _ hsA hsB h
    have h1 := natDigits_inj hnum
    have h2 := natDigits_inj hden
    refine Rat.ext ?_ h2
    omega

theorem hq_stem_inj (o1 o2 : IpqOpts) (h : hq_stem o1 = hq_stem o2) :
    o1 = o2 := by
  have hu : ∀ n : Nat, '_' ∉ natDigits n := fun n => not_mem_natDigits '_' rfl n
  unfold hq_stem at h
  obtain ⟨e5, hrest⟩ := split_unique '_' _ _ _ _ (hu _) (hu _) h
  obtain ⟨e3, hacc⟩ := split_unique '_' _ _ _ _ (hu _) (hu _) hrest
  cases o1
  cases o2
  simp only [IpqOpts.mk.injEq]
  exact ⟨natDigits_inj e5, natDigits_inj e3, ratDigits_inj hacc⟩

/-- C7 counterexample: two distinct QVPolicy triples (different
`hq_quiver_min_accuracy`) produce identical canonical LQ-fasta and
LQ-fastq file names, so the claim fails for the LQ streams. -/
theorem C7_counterexample :
    ((⟨100, 30, 99/100⟩ : IpqOpts) ≠ ⟨100, 30, 49/50⟩) ∧
    quivered_bad_fa "root".toList ⟨100, 30, 99/100⟩ =
      quivered_bad_fa "root".toList ⟨100, 30, 49/50⟩ ∧
    quivered_bad_fq "root".toList ⟨100, 30, 99/100⟩ =
      quivered_bad_fq "root".toList ⟨100, 30, 49/50⟩ :=
  ⟨by intro h; rw [IpqOpts.mk.injEq] at h; norm_num at h, rfl, rfl⟩

/-- C7 amended: only the HQ streams are policy-stamped.  The HQ-fasta and
HQ-fastq canonical names embed (qv_trim_5, qv_trim_3, min_accuracy) and
collide exactly when the policies are equal, while the LQ-fasta and
LQ-fastq canonical names are fixed and identical for all policies. -/
theorem C7_policy_stamped_names (root : List Char) (o1 o2 : IpqOpts) :
    (quivered_good_fa root o1 = quivered_good_fa root o2 ↔ o1 = o2) ∧
    (quivered_good_fq root o1 = quivered_good_fq root o2 ↔ o1 = o2) ∧
    quivered_bad_fa root o1 = quivered_bad_fa root o2 ∧
    quivered_bad_fq root o1 = quivered_bad_fq root o2 := by
  refine ⟨⟨fun h => ?_, fun h => by rw [h]⟩,
    ⟨fun h => ?_, fun h => by rw [h]⟩, rfl, rfl⟩
  · unfold quivered_good_fa at h
    exact hq_stem_inj o1 o2
      (List.append_cancel_left (List.append_cancel_right h))
  · unfold quivered_good_fq at h
    exact hq_stem_inj o1 o2
      (List.append_cancel_left (List.append_cancel_right h))
